import Mathlib

/-!
Verification of the ParU specification against the repository sources.

The development shallowly embeds, in Lean 4:
  * the MATLAB test helper get_symmetry (src/unnamed/part_000);
  * the ParU_Info status enumeration and the singleton storage
    structures of ParU/Include/ParU.h;
  * models of the symbolic-analysis and numeric-factorization phases
    whose implementation files are not part of this source snapshot;
    every such model carries a doc comment starting with
    Modelled from the spec, and is written to follow the spec text
    (spec.md) and the data-structure comments of ParU.h.

Matrices are embedded as index functions; machine integers of the
source (int64_t) are embedded as Lean Nat or Int; complex MATLAB
scalars are embedded as pairs of rationals (real, imaginary part).
-/

-- ===========================================================================
-- Part 1: the MATLAB helper get_symmetry (src/unnamed/part_000)
-- ===========================================================================

/-- A complex scalar, embedded as a pair of rationals: real and imaginary
part.  MATLAB numeric scalars are embedded exactly. -/
abbrev CNum : Type := ℚ × ℚ

/-- An m-by-n complex matrix, embedded as its dimensions plus an entry
function.  Entries outside the m-by-n range are irrelevant: the embedded
code only reads indices below the bounds. -/
structure CMatrix where
  m : Nat
  n : Nat
  entry : Nat → Nat → CNum

/-- posdiag of get_symmetry: all (real (d) > 0) and all (imag (d) == 0)
for d = diag (A), with A square of size n. -/
def diagPosReal (A : CMatrix) : Bool :=
  (List.range A.n).all
    (fun i => decide (0 < (A.entry i i).1) && decide ((A.entry i i).2 = 0))

/-- isreal (A): every entry of A has zero imaginary part. -/
def isrealMat (A : CMatrix) : Bool :=
  (List.range A.m).all (fun i =>
    (List.range A.n).all (fun j => decide ((A.entry i j).2 = 0)))

/-- nnz (A - ctranspose A) == 0 for square A: the matrix equals its
conjugate transpose. -/
def isHermitianMat (A : CMatrix) : Bool :=
  (List.range A.n).all (fun i =>
    (List.range A.n).all (fun j =>
      decide ((A.entry i j).1 = (A.entry j i).1) &&
      decide ((A.entry i j).2 = -(A.entry j i).2)))

/-- nnz (A - transpose A) == 0 for square A: the matrix equals its
(non-conjugate) transpose. -/
def isSymmetricMat (A : CMatrix) : Bool :=
  (List.range A.n).all (fun i =>
    (List.range A.n).all (fun j =>
      decide (A.entry i j = A.entry j i)))

/-- nnz (A + transpose A) == 0 for square A: the matrix is
skew-symmetric. -/
def isSkewMat (A : CMatrix) : Bool :=
  (List.range A.n).all (fun i =>
    (List.range A.n).all (fun j =>
      decide ((A.entry i j).1 = -(A.entry j i).1) &&
      decide ((A.entry i j).2 = -(A.entry j i).2)))

/-- get_symmetry(A, quick) of src/unnamed/part_000, with the MATLAB
truthiness of quick embedded as quick being nonzero.  Follows the source
line by line: the rectangular early return, then the posdiag quick exit,
then the Hermitian / symmetric / skew-symmetric classification chain. -/
def get_symmetry_q (A : CMatrix) (quick : Nat) : Nat :=
  if A.m ≠ A.n then 1
  else if decide (quick ≠ 0) && !(diagPosReal A) then 2
  else if !(isrealMat A) && isHermitianMat A then
    (if diagPosReal A then 7 else 4)
  else if isSymmetricMat A then
    (if diagPosReal A then 6 else 3)
  else if isSkewMat A then 5
  else 2

/-- get_symmetry(A) with the quick argument omitted: the source sets
quick = 0 when nargin < 2. -/
def get_symmetry (A : CMatrix) : Nat := get_symmetry_q A 0

-- ===========================================================================
-- Part 2: the ParU_Info status enumeration (ParU.h lines 46-53)
-- ===========================================================================

/-- The ParU_Info enumeration of ParU.h: the success code plus the four
error kinds.  Every public ParU routine is declared in ParU.h with this
enumeration as its return type. -/
inductive ParU_Info where
  | PARU_SUCCESS
  | PARU_OUT_OF_MEMORY
  | PARU_INVALID
  | PARU_SINGULAR
  | PARU_TOO_LARGE
deriving DecidableEq

/-- The integer code assigned to each ParU_Info value in ParU.h. -/
def paruInfoCode : ParU_Info → Int
  | .PARU_SUCCESS => 0
  | .PARU_OUT_OF_MEMORY => -1
  | .PARU_INVALID => -2
  | .PARU_SINGULAR => -3
  | .PARU_TOO_LARGE => -4

/-- The list of all five status values, in declaration order. -/
def paruInfoAll : List ParU_Info :=
  [.PARU_SUCCESS, .PARU_OUT_OF_MEMORY, .PARU_INVALID,
   .PARU_SINGULAR, .PARU_TOO_LARGE]

-- ===========================================================================
-- Theorems for claims C9, C10, C2
-- ===========================================================================

/-- Claim C9: get_symmetry is total over matrices and its result is always
one of the seven classification codes 1..7; for every rectangular
(non-square) matrix it returns 1 immediately, for any value of the quick
flag and any matrix entries. -/
theorem get_symmetry_range_rect (A : CMatrix) (q : Nat) :
    get_symmetry_q A q ∈ ([1, 2, 3, 4, 5, 6, 7] : List Nat) ∧
    (A.m ≠ A.n → get_symmetry_q A q = 1) := by
  constructor
  · unfold get_symmetry_q
    split
    · decide
    split
    · decide
    split
    · split <;> decide
    split
    · split <;> decide
    split <;> decide
  · intro h
    unfold get_symmetry_q
    rw [if_pos h]

/-- Concrete 2-by-3 matrix used to instantiate the rectangular case. -/
def rectEx : CMatrix := ⟨2, 3, fun _ _ => ((1 : ℚ), 0)⟩

/-- Witness for claim C9: the theorem applied to a concrete rectangular
2-by-3 matrix with quick = 1 yields result 1. -/
theorem get_symmetry_range_rect_wit :
    get_symmetry_q rectEx 1 ∈ ([1, 2, 3, 4, 5, 6, 7] : List Nat) ∧
    get_symmetry_q rectEx 1 = 1 :=
  ⟨(get_symmetry_range_rect rectEx 1).1,
   (get_symmetry_range_rect rectEx 1).2 (by decide)⟩

/-- Claim C10: with quick nonzero, get_symmetry returns 2 whenever the
diagonal is not entirely real and positive, without looking at off-diagonal
symmetry; hence in quick mode a nonempty skew-symmetric matrix yields 2
(never 5), while a complex Hermitian matrix with an all-real positive
diagonal yields 7 even in quick mode; and calling with the quick argument
omitted is the same as calling with quick = 0. -/
theorem get_symmetry_quick (A : CMatrix) :
    (∀ q, q ≠ 0 → A.m = A.n → diagPosReal A = false →
        get_symmetry_q A q = 2) ∧
    (∀ q, q ≠ 0 → A.m = A.n → 0 < A.n → isSkewMat A = true →
        get_symmetry_q A q = 2 ∧ (5 : Nat) ≠ 2) ∧
    (∀ q, A.m = A.n → isrealMat A = false → isHermitianMat A = true →
        diagPosReal A = true → get_symmetry_q A q = 7) ∧
    get_symmetry A = get_symmetry_q A 0 := by
  refine ⟨?_, ?_, ?_, rfl⟩
  · intro q hq hmn hd
    simp [get_symmetry_q, hmn, hq, hd]
  · intro q hq hmn hn hskew
    refine ⟨?_, by decide⟩
    have h00 : (A.entry 0 0).1 = 0 := by
      have := hskew
      rw [isSkewMat, List.all_eq_true] at this
      have h0 := this 0 (List.mem_range.2 hn)
      rw [List.all_eq_true] at h0
      have h00 := h0 0 (List.mem_range.2 hn)
      simp only [Bool.and_eq_true, decide_eq_true_eq] at h00
      linarith [h00.1]
    have hd : diagPosReal A = false := by
      apply Bool.eq_false_iff.mpr
      intro hall
      rw [diagPosReal, List.all_eq_true] at hall
      have := hall 0 (List.mem_range.2 hn)
      simp only [Bool.and_eq_true, decide_eq_true_eq] at this
      rw [h00] at this
      exact lt_irrefl 0 this.1
    simp [get_symmetry_q, hmn, hq, hd]
  · intro q hmn hreal hherm hd
    simp [get_symmetry_q, hmn, hreal, hherm, hd]

/-- Concrete 2-by-2 skew-symmetric real matrix. -/
def skewEx : CMatrix :=
  ⟨2, 2, fun i j =>
    if i = 0 ∧ j = 1 then ((1 : ℚ), 0)
    else if i = 1 ∧ j = 0 then (-1, 0)
    else (0, 0)⟩

/-- Concrete 2-by-2 complex Hermitian matrix with positive real diagonal. -/
def hermEx : CMatrix :=
  ⟨2, 2, fun i j =>
    if i = 0 ∧ j = 0 then ((2 : ℚ), 0)
    else if i = 0 ∧ j = 1 then (0, 1)
    else if i = 1 ∧ j = 0 then (0, -1)
    else (3, 0)⟩

/-- Witness for claim C10: in quick mode the concrete skew-symmetric
matrix classifies as 2 and the concrete complex Hermitian matrix with
positive real diagonal classifies as 7. -/
theorem get_symmetry_quick_wit :
    get_symmetry_q skewEx 1 = 2 ∧ get_symmetry_q hermEx 1 = 7 :=
  ⟨((get_symmetry_quick skewEx).2.1 1 (by decide) (by decide) (by decide)
      (by decide)).1,
   (get_symmetry_quick hermEx).2.2.1 1 (by decide) (by decide) (by decide)
      (by decide)⟩

/-- Claim C2: the return type shared by every public ParU call has exactly
five values: the success code and the four error kinds, all pairwise
distinct both as enumeration values and as integer codes. -/
theorem paruInfo_fixed_set :
    (∀ i : ParU_Info, i ∈ paruInfoAll) ∧
    paruInfoAll.Pairwise
      (fun a b => a ≠ b ∧ paruInfoCode a ≠ paruInfoCode b) ∧
    paruInfoAll.length = 5 :=
  ⟨fun i => by cases i <;> simp [paruInfoAll], by decide, rfl⟩

-- ===========================================================================
-- Part 3: singleton blocks (ParU.h lines 100-132) -- claim C8
-- ===========================================================================

/-- Concatenation of a list of blocks into one flat array.  Used to model
the packed index arrays (Suj, Sli, Child) of ParU.h. -/
def catLists {α : Type} : List (List α) → List α
  | [] => []
  | l :: ls => l ++ catLists ls

/-- The pointer of block r: the total length of the first r blocks.  This
models the pointer arrays (Sup, Slp, Childp) of ParU.h. -/
def blockPtr {α : Type} (ls : List (List α)) (r : Nat) : Nat :=
  ((ls.take r).map List.length).sum

theorem blockPtr_zero {α : Type} (ls : List (List α)) : blockPtr ls 0 = 0 := by
  simp [blockPtr]

theorem blockPtr_cons_succ {α : Type} (l : List α) (t : List (List α)) (k : Nat) :
    blockPtr (l :: t) (k + 1) = l.length + blockPtr t k := by
  simp [blockPtr]

theorem catLists_drop_blockPtr {α : Type} (r : Nat) (ls : List (List α)) :
    (catLists ls).drop (blockPtr ls r) = catLists (ls.drop r) := by
  induction r generalizing ls with
  | zero => simp [blockPtr]
  | succ k ih =>
    cases ls with
    | nil => simp [blockPtr, catLists]
    | cons l t =>
      rw [blockPtr_cons_succ]
      show (l ++ catLists t).drop (l.length + blockPtr t k) = _
      rw [List.drop_append]
      exact ih t

theorem blockPtr_succ {α : Type} (ls : List (List α)) (r : Nat)
    (h : r < ls.length) :
    blockPtr ls (r + 1) = blockPtr ls r + (ls.getD r []).length := by
  induction r generalizing ls with
  | zero =>
    cases ls with
    | nil => simp at h
    | cons l t => simp [blockPtr]
  | succ k ih =>
    cases ls with
    | nil => simp at h
    | cons l t =>
      rw [blockPtr_cons_succ, blockPtr_cons_succ, ih t (by simpa using h)]
      simp [Nat.add_assoc]

/-- The slice of a flat array delimited by two consecutive block
pointers: this is how ParU reads one row (CSR) or one column (CSC) out of
a packed block. -/
def ptrSlice {α : Type} (flat : List α) (p : Nat → Nat) (r : Nat) : List α :=
  (flat.drop (p r)).take (p (r + 1) - p r)

theorem ptrSlice_catLists {α : Type} (ls : List (List α)) (r : Nat)
    (h : r < ls.length) :
    ptrSlice (catLists ls) (blockPtr ls) r = ls.getD r [] := by
  unfold ptrSlice
  rw [catLists_drop_blockPtr, blockPtr_succ ls r h, Nat.add_sub_cancel_left]
  rw [List.drop_eq_getElem_cons h]
  show (ls[r] ++ catLists (ls.drop (r + 1))).take (ls.getD r []).length = _
  rw [List.getD_eq_getElem ls [] h]
  exact List.take_left _ _

/-- ParU_U_singleton of ParU.h: the U-singleton block, stored in CSR
(row-major) form.  The block has one row per column singleton (cs1 rows);
Sup is the row-pointer array and Suj the packed column indices. -/
structure ParU_U_singleton where
  nnz : Nat
  Sup : Nat → Nat
  Suj : List Nat

/-- ParU_L_singleton of ParU.h: the L-singleton block, stored in CSC
(column-major) form.  The block has one column per row singleton (rs1
columns); Slp is the column-pointer array and Sli the packed row
indices. -/
structure ParU_L_singleton where
  nnz : Nat
  Slp : Nat → Nat
  Sli : List Nat

/-- Modelled from the spec: the construction of the U-singleton block by
ParU_Analyze, whose implementation is not part of this source snapshot.
Per ParU.h, the structure eliminated by the cs1 column singletons is kept
in CSR form: row r of the block (the U row produced by the r-th column
singleton) occupies Suj[Sup r .. Sup (r+1) - 1]. -/
def buildUsingleton (uRows : List (List Nat)) : ParU_U_singleton :=
  ⟨(catLists uRows).length, blockPtr uRows, catLists uRows⟩

/-- Modelled from the spec: the construction of the L-singleton block by
ParU_Analyze, whose implementation is not part of this source snapshot.
Per ParU.h, the structure eliminated by the rs1 row singletons is kept in
CSC form: column c of the block (the L column produced by the c-th row
singleton) occupies Sli[Slp c .. Slp (c+1) - 1]. -/
def buildLsingleton (lCols : List (List Nat)) : ParU_L_singleton :=
  ⟨(catLists lCols).length, blockPtr lCols, catLists lCols⟩

/-- Reading one row of the U-singleton block: row-major access. -/
def uRowSlice (us : ParU_U_singleton) (r : Nat) : List Nat :=
  ptrSlice us.Suj us.Sup r

/-- Reading one column of the L-singleton block: column-major access. -/
def lColSlice (lsg : ParU_L_singleton) (c : Nat) : List Nat :=
  ptrSlice lsg.Sli lsg.Slp c

/-- Claim C8: the two singleton blocks are stored in opposite
orientations.  The block for the cs1 column singletons (the U-singleton
structure) is CSR: its row-major slices recover exactly the stored rows;
the block for the rs1 row singletons (the L-singleton structure) is CSC:
its column-major slices recover exactly the stored columns. -/
theorem singleton_storage_orientation (uRows lCols : List (List Nat)) :
    (∀ r, r < uRows.length →
      uRowSlice (buildUsingleton uRows) r = uRows.getD r []) ∧
    (∀ c, c < lCols.length →
      lColSlice (buildLsingleton lCols) c = lCols.getD c []) ∧
    (buildUsingleton uRows).nnz = (uRows.map List.length).sum ∧
    (buildLsingleton lCols).nnz = (lCols.map List.length).sum := by
  refine ⟨?_, ?_, ?_, ?_⟩
  · intro r h
    exact ptrSlice_catLists uRows r h
  · intro c h
    exact ptrSlice_catLists lCols c h
  · show (catLists uRows).length = _
    induction uRows with
    | nil => rfl
    | cons l t ih => simp [catLists, ih]
  · show (catLists lCols).length = _
    induction lCols with
    | nil => rfl
    | cons l t ih => simp [catLists, ih]

/-- Witness for claim C8 at a concrete pair of singleton blocks. -/
theorem singleton_storage_orientation_wit :
    uRowSlice (buildUsingleton [[3, 4], [5]]) 1 = [5] ∧
    lColSlice (buildLsingleton [[7], [8, 9]]) 1 = [8, 9] :=
  ⟨(singleton_storage_orientation [[3, 4], [5]] [[7], [8, 9]]).1 1 (by decide),
   (singleton_storage_orientation [[3, 4], [5]] [[7], [8, 9]]).2.1 1 (by decide)⟩

-- ===========================================================================
-- Part 4: the assembly tree (ParU.h lines 191-204) -- claim C5
-- ===========================================================================

/-- A symbolic front tree, following ParU_Symbolic of ParU.h: nf fronts
numbered 0..nf-1 plus the placeholder root node nf; the Parent array and
the packed child lists Child / Childp. -/
structure FrontTree where
  nf : Nat
  Parent : Nat → Nat
  Child : List Nat
  Childp : Nat → Nat

/-- The Parent array stored by the builder: the parent supplied by the
ordering oracle, with roots of the frontal forest (no parent) remapped to
the placeholder node nf, and the placeholder node mapped to itself. -/
def parOf (nf : Nat) (eparent : Nat → Option Nat) (f : Nat) : Nat :=
  if f < nf then (eparent f).getD nf else nf

/-- The children of node g: the fronts whose stored parent is g. -/
def childrenOf (nf : Nat) (parent : Nat → Nat) (g : Nat) : List Nat :=
  (List.range nf).filter (fun c => parent c == g)

/-- The per-node child lists for all nodes 0..nf. -/
def treeLists (nf : Nat) (eparent : Nat → Option Nat) : List (List Nat) :=
  (List.range (nf + 1)).map (childrenOf nf (parOf nf eparent))

/-- Modelled from the spec: the assembly-tree construction of ParU_Analyze
(implementation absent from this source snapshot).  The ordering oracle
supplies, for each front, an optional parent front; per ParU.h the builder
keeps Parent[f] with forest roots remapped to the placeholder node nf so
that nodes 0..nf form one tree, and packs the child lists into Child
delimited by Childp. -/
def buildTree (nf : Nat) (eparent : Nat → Option Nat) : FrontTree :=
  ⟨nf, parOf nf eparent, catLists (treeLists nf eparent),
   blockPtr (treeLists nf eparent)⟩

theorem treeLists_getD (nf : Nat) (eparent : Nat → Option Nat) (g : Nat)
    (h : g < nf + 1) :
    (treeLists nf eparent).getD g [] = childrenOf nf (parOf nf eparent) g := by
  rw [treeLists, List.getD_eq_getElem _ _ (by simpa [treeLists] using h)]
  simp

/-- Ascent to the root: if every non-placeholder node has a strictly
larger parent bounded by nf, iterating Parent from any node reaches the
placeholder root nf. -/
theorem iterate_parent_reaches_root (nf : Nat) (par : Nat → Nat)
    (hpar : ∀ f, f < nf → f < par f ∧ par f ≤ nf) :
    ∀ f, f ≤ nf → ∃ k, par^[k] f = nf := by
  have main : ∀ d f, f ≤ nf → nf - f ≤ d → ∃ k, par^[k] f = nf := by
    intro d
    induction d with
    | zero =>
      intro f hle hd
      have hf : f = nf :=
        le_antisymm hle (Nat.le_of_sub_eq_zero (Nat.le_zero.mp hd))
      exact ⟨0, by simp [hf]⟩
    | succ d ih =>
      intro f hle hd
      by_cases hf : f = nf
      · exact ⟨0, by simp [hf]⟩
      · have hflt : f < nf := lt_of_le_of_ne hle hf
        obtain ⟨h1, h2⟩ := hpar f hflt
        obtain ⟨k, hk⟩ := ih (par f) h2 (by omega)
        exact ⟨k + 1, by rw [Function.iterate_succ_apply]; exact hk⟩
  intro f hf
  exact main (nf - f) f hf le_rfl

/-- Claim C5: the built assembly tree consists of the nf fronts plus the
placeholder root nf: every front has a parent in 0..nf strictly above it,
forest roots get the placeholder nf as parent, the children of each node
g are exactly the slice Child[Childp g .. Childp (g+1) - 1], and the
parent relation on nodes 0..nf is acyclic, every node reaching the single
root nf. -/
theorem assembly_tree_wf (nf : Nat) (eparent : Nat → Option Nat)
    (hep : ∀ f, f < nf →
      f < (eparent f).getD nf ∧ (eparent f).getD nf ≤ nf) :
    (∀ f, f < nf →
      f < (buildTree nf eparent).Parent f ∧
      (buildTree nf eparent).Parent f ≤ nf) ∧
    (∀ f, f < nf → eparent f = none →
      (buildTree nf eparent).Parent f = nf) ∧
    (∀ g, g ≤ nf → ∀ c,
      c ∈ ptrSlice (buildTree nf eparent).Child
            (buildTree nf eparent).Childp g ↔
      (c < nf ∧ (buildTree nf eparent).Parent c = g)) ∧
    (∀ f, f ≤ nf → ∃ k,
      (buildTree nf eparent).Parent^[k] f = nf) := by
  have hpar : ∀ f, f < nf →
      f < parOf nf eparent f ∧ parOf nf eparent f ≤ nf := by
    intro f hf
    rw [parOf, if_pos hf]
    exact hep f hf
  refine ⟨hpar, ?_, ?_, ?_⟩
  · intro f hf hnone
    show parOf nf eparent f = nf
    rw [parOf, if_pos hf, hnone]
    rfl
  · intro g hg c
    show c ∈ ptrSlice (catLists (treeLists nf eparent))
        (blockPtr (treeLists nf eparent)) g ↔ _
    rw [ptrSlice_catLists _ g (by simp [treeLists]; omega),
        treeLists_getD nf eparent g (by omega), childrenOf]
    simp [List.mem_filter, List.mem_range]
    tauto
  · exact iterate_parent_reaches_root nf (parOf nf eparent) hpar

/-- Concrete parent oracle for the witness: fronts 0 and 1 are children
of front 2, which is a forest root. -/
def epEx : Nat → Option Nat := fun f =>
  if f = 0 then some 2 else if f = 1 then some 2 else none

/-- Witness for claim C5 on a concrete 3-front tree: front 0 is listed
among the children of front 2, the root front 2 gets the placeholder
parent 3, and iterating Parent from front 0 reaches the placeholder. -/
theorem assembly_tree_wf_wit :
    (0 ∈ ptrSlice (buildTree 3 epEx).Child (buildTree 3 epEx).Childp 2) ∧
    (buildTree 3 epEx).Parent 2 = 3 ∧
    (∃ k, (buildTree 3 epEx).Parent^[k] 0 = 3) :=
  ⟨((assembly_tree_wf 3 epEx (by decide)).2.2.1 2 (by decide) 0).mpr
      (by decide),
   (assembly_tree_wf 3 epEx (by decide)).2.1 2 (by decide) rfl,
   (assembly_tree_wf 3 epEx (by decide)).2.2.2 0 (by decide)⟩

-- ===========================================================================
-- Part 5: the task partition (ParU.h lines 255-261) -- claim C6
-- ===========================================================================

/-- A task plan over a front tree, following ParU_Symbolic of ParU.h:
ntasks tasks, where task t executes the fronts task_map[t]+1 through
task_map[t+1], and task_map[0] = -1. -/
structure TaskPlan where
  nf : Nat
  ntasks : Nat
  Parent : Nat → Nat
  task_map : Nat → Int

/-- Linear search for the first task interval whose upper boundary
reaches f, starting from task t with the given fuel. -/
def taskOfAux (tm : Nat → Int) (f : Int) : Nat → Nat → Nat
  | 0, t => t
  | fuel + 1, t => if f ≤ tm (t + 1) then t else taskOfAux tm f fuel (t + 1)

/-- Modelled from the spec: the task containing front f.  Tasks cover
consecutive front ranges (task_map), so the task of f is the first t with
f ≤ task_map (t+1); the placeholder front nf is assigned the placeholder
task ntasks. -/
def taskOf (tp : TaskPlan) (f : Nat) : Nat :=
  if f < tp.nf then taskOfAux tp.task_map (f : Int) tp.ntasks 0 else tp.ntasks

/-- Modelled from the spec: the parent of task t in the task tree is the
task containing the parent front of t's last front; the placeholder task
is its own parent. -/
def taskParentOf (tp : TaskPlan) (t : Nat) : Nat :=
  if t < tp.ntasks then
    taskOf tp (tp.Parent (tp.task_map (t + 1)).toNat)
  else tp.ntasks

theorem taskOfAux_spec (tm : Nat → Int) (f : Int) :
    ∀ fuel t, tm t < f → (∃ s, s < fuel ∧ f ≤ tm (t + s + 1)) →
      tm (taskOfAux tm f fuel t) < f ∧
      f ≤ tm (taskOfAux tm f fuel t + 1) ∧
      t ≤ taskOfAux tm f fuel t ∧ taskOfAux tm f fuel t < t + fuel := by
  intro fuel
  induction fuel with
  | zero =>
    intro t _ hex
    obtain ⟨s, hs, _⟩ := hex
    omega
  | succ fu ih =>
    intro t h1 hex
    have hunf : taskOfAux tm f (fu + 1) t =
        if f ≤ tm (t + 1) then t else taskOfAux tm f fu (t + 1) := rfl
    rw [hunf]
    by_cases hle : f ≤ tm (t + 1)
    · rw [if_pos hle]
      exact ⟨h1, hle, le_rfl, by omega⟩
    · rw [if_neg hle]
      have h2 : tm (t + 1) < f := lt_of_not_le hle
      obtain ⟨s, hs, hf⟩ := hex
      cases s with
      | zero =>
        exact absurd (by simpa using hf) hle
      | succ s2 =>
        have hidx : t + (s2 + 1) + 1 = (t + 1) + s2 + 1 := by omega
        rw [hidx] at hf
        obtain ⟨a, b, c, d⟩ := ih (t + 1) h2 ⟨s2, by omega, hf⟩
        exact ⟨a, b, by omega, by omega⟩

theorem tm_mono_of_inc (ntasks : Nat) (tm : Nat → Int)
    (hinc : ∀ t, t < ntasks → tm t < tm (t + 1)) :
    ∀ s t, s ≤ t → t ≤ ntasks → tm s ≤ tm t := by
  intro s t
  induction t with
  | zero =>
    intro hst _
    interval_cases s
    exact le_rfl
  | succ u ih =>
    intro hst hun
    rcases Nat.lt_or_ge s (u + 1) with hlt | hge
    · have h1 : tm s ≤ tm u := ih (by omega) (by omega)
      have h2 : tm u < tm (u + 1) := hinc u (by omega)
      omega
    · have : s = u + 1 := by omega
      rw [this]

theorem taskOf_char (tp : TaskPlan)
    (_hinc : ∀ t, t < tp.ntasks → tp.task_map t < tp.task_map (t + 1))
    (h0 : tp.task_map 0 = -1)
    (hlast : tp.task_map tp.ntasks = (tp.nf : Int) - 1)
    (f : Nat) (hf : f < tp.nf) :
    tp.task_map (taskOf tp f) < (f : Int) ∧
    (f : Int) ≤ tp.task_map (taskOf tp f + 1) ∧
    taskOf tp f < tp.ntasks := by
  have hnt : 0 < tp.ntasks := by
    rcases Nat.eq_zero_or_pos tp.ntasks with h | h
    · rw [h] at hlast
      rw [h0] at hlast
      omega
    · exact h
  have hidx : 0 + (tp.ntasks - 1) + 1 = tp.ntasks := by omega
  have hex : ∃ s, s < tp.ntasks ∧ (f : Int) ≤ tp.task_map (0 + s + 1) :=
    ⟨tp.ntasks - 1, by omega, by rw [hidx, hlast]; omega⟩
  have h00 : tp.task_map 0 < (f : Int) := by rw [h0]; omega
  obtain ⟨a, b, c, d⟩ :=
    taskOfAux_spec tp.task_map (f : Int) tp.ntasks 0 h00 hex
  rw [taskOf, if_pos hf]
  exact ⟨a, b, by omega⟩

theorem taskOf_unique (tp : TaskPlan)
    (hinc : ∀ t, t < tp.ntasks → tp.task_map t < tp.task_map (t + 1))
    (h0 : tp.task_map 0 = -1)
    (hlast : tp.task_map tp.ntasks = (tp.nf : Int) - 1)
    (f t : Nat) (hf : f < tp.nf) (ht : t < tp.ntasks)
    (hl : tp.task_map t < (f : Int)) (hr : (f : Int) ≤ tp.task_map (t + 1)) :
    taskOf tp f = t := by
  obtain ⟨a, b, c⟩ := taskOf_char tp hinc h0 hlast f hf
  by_contra hne
  rcases Nat.lt_or_ge (taskOf tp f) t with hlt | hge
  · have := tm_mono_of_inc tp.ntasks tp.task_map hinc
      (taskOf tp f + 1) t (by omega) (by omega)
    omega
  · have hgt : t < taskOf tp f := by omega
    have := tm_mono_of_inc tp.ntasks tp.task_map hinc
      (t + 1) (taskOf tp f) (by omega) (by omega)
    omega

/-- Claim C6: the task tree is a refinement-compatible coarsening of the
front tree.  For every front f, the parent task of f's task is an
ancestor of (or equal to) the task containing f's parent front, and the
task containing f's parent front is an ancestor of (or the same as) f's
own task. -/
theorem task_tree_coarsening (tp : TaskPlan)
    (hinc : ∀ t, t < tp.ntasks → tp.task_map t < tp.task_map (t + 1))
    (h0 : tp.task_map 0 = -1)
    (hlast : tp.task_map tp.ntasks = (tp.nf : Int) - 1)
    (hchain : ∀ t, t < tp.ntasks → ∀ f, f < tp.nf →
      tp.task_map t < (f : Int) → (f : Int) < tp.task_map (t + 1) →
      tp.Parent f = f + 1) :
    ∀ f, f < tp.nf →
      (∃ k, (taskParentOf tp)^[k] (taskOf tp (tp.Parent f)) =
        taskParentOf tp (taskOf tp f)) ∧
      (∃ k, (taskParentOf tp)^[k] (taskOf tp f) =
        taskOf tp (tp.Parent f)) := by
  intro f hf
  obtain ⟨h1, h2, h3⟩ := taskOf_char tp hinc h0 hlast f hf
  by_cases hcase : (f : Int) < tp.task_map (taskOf tp f + 1)
  · have hpf : tp.Parent f = f + 1 := hchain (taskOf tp f) h3 f hf h1 hcase
    have hf1nf : f + 1 < tp.nf := by
      have hmono := tm_mono_of_inc tp.ntasks tp.task_map hinc
        (taskOf tp f + 1) tp.ntasks (by omega) le_rfl
      rw [hlast] at hmono
      omega
    have hsame : taskOf tp (f + 1) = taskOf tp f :=
      taskOf_unique tp hinc h0 hlast (f + 1) (taskOf tp f) hf1nf h3
        (by push_cast; omega) (by push_cast; omega)
    rw [hpf, hsame]
    exact ⟨⟨1, by simp⟩, ⟨0, rfl⟩⟩
  · have hfeq : (f : Int) = tp.task_map (taskOf tp f + 1) :=
      le_antisymm h2 (not_lt.mp hcase)
    have htp : taskParentOf tp (taskOf tp f) = taskOf tp (tp.Parent f) := by
      rw [taskParentOf, if_pos h3]
      have : (tp.task_map (taskOf tp f + 1)).toNat = f := by omega
      rw [this]
    exact ⟨⟨0, htp.symm⟩, ⟨1, by simp [htp]⟩⟩

/-- Concrete task plan for the witness: three fronts, two tasks; task 0
holds the chain of fronts 0 and 1 (Parent 0 = 1), task 1 holds front 2;
fronts 1 and 2 are forest roots with placeholder parent 3. -/
def tpEx : TaskPlan :=
  ⟨3, 2,
   fun f => if f = 0 then 1 else 3,
   fun t => if t = 0 then -1 else if t = 1 then 1 else 2⟩

/-- Witness for claim C6 on the concrete task plan, at front 0. -/
theorem task_tree_coarsening_wit :
    (∃ k, (taskParentOf tpEx)^[k] (taskOf tpEx (tpEx.Parent 0)) =
      taskParentOf tpEx (taskOf tpEx 0)) ∧
    (∃ k, (taskParentOf tpEx)^[k] (taskOf tpEx 0) =
      taskOf tpEx (tpEx.Parent 0)) :=
  task_tree_coarsening tpEx
    (by decide) (by decide) (by decide)
    (by decide)
    0 (by decide)

-- ===========================================================================
-- Part 6: determinism of the symbolic analysis -- claim C7
-- ===========================================================================

/-- The nonzero pattern of a square matrix of size n: the Boolean support
of the entries inside the n-by-n range. -/
def patternOf (n : Nat) (A : Nat → Nat → ℚ) : Nat → Nat → Bool :=
  fun i j => decide (i < n) && (decide (j < n) && decide (A i j ≠ 0))

/-- Modelled from the spec: the elimination-structure skeleton returned
by the ordering oracle for column j, derived from the pattern alone: the
first column k above j connected to j in the pattern, if any. -/
def etreeParent (n : Nat) (p : Nat → Nat → Bool) (j : Nat) : Option Nat :=
  (List.range n).find? (fun k => decide (j < k) && (p j k || p k j))

/-- Depth of a node below the forest roots, computed by walking the
parent chain with explicit fuel. -/
def depthOf (nf : Nat) (par : Nat → Nat) : Nat → Nat → Nat
  | 0, _ => 0
  | fuel + 1, f => if nf ≤ par f then 0 else depthOf nf par fuel (par f) + 1

/-- Modelled from the spec: the last front of each task chain; front f is
merged with f+1 into one task exactly when f+1 is its tree parent. -/
def chainLasts (n : Nat) (p : Nat → Nat → Bool) : List Nat :=
  (List.range n).filter (fun f => !(etreeParent n p f == some (f + 1)))

/-- A symbolic plan, collecting the outputs that claim C7 compares: tree
shape (Parent / Child / Childp / Depth), task partition (ntasks and
task_map), and per-front size data (Fm, Cm, Super). -/
structure SymPlanModel where
  nf : Nat
  tree : FrontTree
  Depth : Nat → Nat
  Fm : Nat → Nat
  Cm : Nat → Nat
  Super : Nat → Nat
  ntasks : Nat
  task_map : Nat → Int

/-- Modelled from the spec: the whole symbolic plan as a function of the
nonzero pattern only (ParU_Analyze constructs the pattern of S and never
reads numerical values).  One front per pivot column; the assembly tree
comes from the pattern skeleton, the task partition merges tree chains,
and Fm / Cm count candidate rows in the pattern. -/
def planOf (n : Nat) (p : Nat → Nat → Bool) : SymPlanModel :=
  ⟨n,
   buildTree n (etreeParent n p),
   fun f => depthOf n (parOf n (etreeParent n p)) n f,
   fun f => ((List.range n).filter (fun i => p i f)).length,
   fun f => ((List.range n).filter (fun i => p i f)).length - 1,
   fun f => f,
   (chainLasts n p).length,
   fun t => if t = 0 then -1 else (((chainLasts n p).getD (t - 1) 0 : Nat) : Int)⟩

/-- Modelled from the spec: ParU_Analyze as seen by claim C7 -- the
symbolic plan computed from a matrix is a function of its pattern. -/
def analyzeModel (n : Nat) (A : Nat → Nat → ℚ) : SymPlanModel :=
  planOf n (patternOf n A)

/-- Claim C7: symbolic analysis is deterministic in the nonzero pattern.
Two matrices with identical support (possibly different values) receive
identical symbolic plans: same tree shape, same task partition, same size
bounds. -/
theorem analyze_pattern_deterministic (n : Nat) (A B : Nat → Nat → ℚ)
    (h : ∀ i, i < n → ∀ j, j < n → (A i j = 0 ↔ B i j = 0)) :
    analyzeModel n A = analyzeModel n B := by
  have hp : patternOf n A = patternOf n B := by
    funext i j
    by_cases hi : i < n
    · by_cases hj : j < n
      · have hiff := h i hi j hj
        have hd : decide (A i j ≠ 0) = decide (B i j ≠ 0) :=
          decide_eq_decide.mpr (not_iff_not.mpr hiff)
        simp only [patternOf, hd]
      · simp [patternOf, hj]
    · simp [patternOf, hi]
  rw [analyzeModel, analyzeModel, hp]

/-- A concrete 2-by-2 diagonal matrix. -/
def diagMatEx : Nat → Nat → ℚ := fun i j => if i = j then 1 else 0

/-- The same pattern with different values. -/
def diagMatEx2 : Nat → Nat → ℚ := fun i j => if i = j then 5 else 0

/-- Witness for claim C7: the two concrete same-pattern matrices receive
the same symbolic plan. -/
theorem analyze_pattern_deterministic_wit :
    analyzeModel 2 diagMatEx = analyzeModel 2 diagMatEx2 :=
  analyze_pattern_deterministic 2 diagMatEx diagMatEx2
    (by
      intro i _ j _
      by_cases hij : i = j <;> simp [diagMatEx, diagMatEx2, hij])

-- ===========================================================================
-- Part 7: singular factorization reporting -- claim C3
-- ===========================================================================

/-- Magnitude of a rational, written without type-class detours so that
concrete instances evaluate in the kernel. -/
def qabs (q : ℚ) : ℚ := if q < 0 then -q else q

theorem qabs_nonneg (q : ℚ) : 0 ≤ qabs q := by
  rw [qabs]
  split
  · linarith
  · linarith

theorem qabs_zero : qabs 0 = 0 := rfl

/-- State of the model elimination: the current working matrix, the rows
already consumed as pivot rows, and the diagonal pivots found so far. -/
structure ElimState where
  M : Nat → Nat → ℚ
  used : List Nat
  pivs : List ℚ

/-- The candidate row with the largest magnitude entry in column k (the
first such row on ties), per the partial-pivoting rule of the spec. -/
def pickPivotRow (M : Nat → Nat → ℚ) (k : Nat) (cands : List Nat) : Nat :=
  match cands with
  | [] => 0
  | r :: rest =>
    rest.foldl (fun best i => if qabs (M best k) < qabs (M i k) then i else best) r

/-- Modelled from the spec: one column step of the dense pivoted
elimination inside ParU_Factorize (implementation absent from this source
snapshot).  For column k the not-yet-used row with the largest magnitude
entry is selected; if that entry is zero every remaining candidate is
zero, so the column is deferred and a zero pivot is recorded (the spec:
a failed pivot column is deferred, not fatal); otherwise the pivot row is
consumed and every other unused row is updated by the elimination. -/
def elimStep (n : Nat) (st : ElimState) (k : Nat) : ElimState :=
  let cands := (List.range n).filter (fun r => !(st.used.contains r))
  let r := pickPivotRow st.M k cands
  let p := st.M r k
  if p = 0 then
    ⟨st.M, st.used, st.pivs ++ [0]⟩
  else
    ⟨fun i j =>
        if i ≠ r ∧ st.used.contains i = false then
          st.M i j - (st.M i k / p) * st.M r j
        else st.M i j,
     st.used ++ [r], st.pivs ++ [p]⟩

/-- The fields of ParU_Numeric relevant to claim C3: the diagonal pivots
(the partial factors), the number of usable (nonzero) pivots, the
conditioning diagnostic min_udiag, and the returned status res. -/
structure NumericModel where
  pivots : List ℚ
  usable : Nat
  min_udiag : ℚ
  res : ParU_Info

/-- Minimum magnitude over a list of pivots (0 for the empty list). -/
def minAbsList : List ℚ → ℚ
  | [] => 0
  | [p] => qabs p
  | p :: ps => min (qabs p) (minAbsList ps)

theorem minAbsList_nonneg (l : List ℚ) : 0 ≤ minAbsList l := by
  induction l with
  | nil => exact le_rfl
  | cons p ps ih =>
    cases ps with
    | nil => exact qabs_nonneg p
    | cons q qs =>
      exact le_min (qabs_nonneg p) ih

theorem minAbsList_le_of_mem (l : List ℚ) (x : ℚ) (hx : x ∈ l) :
    minAbsList l ≤ qabs x := by
  induction l with
  | nil => simp at hx
  | cons p ps ih =>
    rcases List.mem_cons.mp hx with h | h
    · cases ps with
      | nil => simp [minAbsList, h]
      | cons q qs => simp [minAbsList, h]
    · cases ps with
      | nil => simp at h
      | cons q qs =>
        calc minAbsList (p :: q :: qs) ≤ minAbsList (q :: qs) :=
              min_le_right _ _
          _ ≤ qabs x := ih h

/-- Modelled from the spec: ParU_Factorize's global pivot search and
singularity report (implementation absent from this source snapshot).
All n columns are processed; if the factorization yields fewer usable
pivots than the dimension, the result object carries res = SINGULAR (the
call still returns its partial factors and diagnostics rather than
aborting); min_udiag is the smallest pivot magnitude. -/
def factorizeModel (n : Nat) (A : Nat → Nat → ℚ) : NumericModel :=
  let final := (List.range n).foldl (elimStep n) ⟨A, [], []⟩
  let us := (final.pivs.filter (fun p => !(p == 0))).length
  ⟨final.pivs, us, minAbsList final.pivs,
   if us < n then .PARU_SINGULAR else .PARU_SUCCESS⟩

theorem elimStep_pivs_len (n : Nat) (st : ElimState) (k : Nat) :
    (elimStep n st k).pivs.length = st.pivs.length + 1 := by
  rw [elimStep]
  split <;> simp

theorem foldl_elim_pivs_len (n : Nat) (ks : List Nat) :
    ∀ st : ElimState,
      ((ks.foldl (elimStep n) st).pivs).length = st.pivs.length + ks.length := by
  induction ks with
  | nil => intro st; simp
  | cons k ks ih =>
    intro st
    rw [List.foldl_cons, ih (elimStep n st k), elimStep_pivs_len]
    simp
    omega

theorem filter_length_lt_exists (l : List ℚ) (q : ℚ → Bool)
    (h : (l.filter q).length < l.length) : ∃ x ∈ l, q x = false := by
  induction l with
  | nil => simp at h
  | cons p ps ih =>
    by_cases hp : q p
    · rw [List.filter_cons_of_pos hp] at h
      obtain ⟨x, hx, hqx⟩ := ih (by simpa using h)
      exact ⟨x, List.mem_cons_of_mem p hx, hqx⟩
    · exact ⟨p, List.mem_cons_self p ps, Bool.eq_false_iff.mpr hp⟩

/-- Claim C3: whenever the model factorization finds fewer usable pivots
than the dimension, the returned Numeric object reports SINGULAR, it
still carries all n diagonal pivots of the partial factors, and the
conditioning diagnostic min_udiag is exactly zero. -/
theorem factorize_singular_report (n : Nat) (A : Nat → Nat → ℚ)
    (h : (factorizeModel n A).usable < n) :
    (factorizeModel n A).res = ParU_Info.PARU_SINGULAR ∧
    (factorizeModel n A).pivots.length = n ∧
    (factorizeModel n A).min_udiag = 0 := by
  have hres : (factorizeModel n A).res =
      if (factorizeModel n A).usable < n then ParU_Info.PARU_SINGULAR
      else ParU_Info.PARU_SUCCESS := rfl
  have hlen : (factorizeModel n A).pivots.length = n := by
    show (((List.range n).foldl (elimStep n) ⟨A, [], []⟩).pivs).length = n
    rw [foldl_elim_pivs_len]
    simp
  refine ⟨by rw [hres, if_pos h], hlen, ?_⟩
  have husable : (factorizeModel n A).usable =
      ((factorizeModel n A).pivots.filter (fun p => !(p == 0))).length := rfl
  have hexists : ∃ x ∈ (factorizeModel n A).pivots, (!(x == 0)) = false := by
    apply filter_length_lt_exists
    rw [← husable, hlen]
    exact h
  obtain ⟨x, hx, hqx⟩ := hexists
  have hx0 : x = 0 := by simpa using hqx
  have hmd : (factorizeModel n A).min_udiag =
      minAbsList (factorizeModel n A).pivots := rfl
  rw [hmd]
  refine le_antisymm ?_ (minAbsList_nonneg _)
  have := minAbsList_le_of_mem (factorizeModel n A).pivots x hx
  rw [hx0, qabs_zero] at this
  exact this

/-- The intentionally singular 3-by-3 matrix of the spec scenario: its
last row equals its first row. -/
def singEx : Nat → Nat → ℚ := fun i j =>
  if i = 0 ∨ i = 2 then (if j = 0 then 1 else if j = 1 then 2 else 3)
  else (if j = 0 then 4 else if j = 1 then 5 else 6)

unseal Rat.add Rat.mul Rat.inv Rat.sub in
/-- Witness for claim C3: the concrete singular 3-by-3 matrix (last row
equal to the first row) is reported SINGULAR with all three pivots
retained and min_udiag equal to zero. -/
theorem factorize_singular_report_wit :
    (factorizeModel 3 singEx).res = ParU_Info.PARU_SINGULAR ∧
    (factorizeModel 3 singEx).pivots.length = 3 ∧
    (factorizeModel 3 singEx).min_udiag = 0 :=
  factorize_singular_report 3 singEx (by decide)

-- ===========================================================================
-- Part 8: realized front sizes vs. symbolic bounds -- claim C4
-- ===========================================================================

/-- Per-front symbolic data (ParU_Symbolic of ParU.h): the candidate row
and column lists discovered by the analysis for front f, and the expected
pivot count fp = Super[f+1] - Super[f]. -/
structure FrontSym where
  candRows : List Nat
  candCols : List Nat
  fp : Nat

/-- Fm[f] of ParU.h: the upper bound on the front's row count, the
number of candidate rows allotted by the symbolic analysis. -/
def symFm (s : FrontSym) : Nat := s.candRows.length

/-- Cm[f] of ParU.h: the upper bound on the number of rows of the
contribution block, the candidate rows minus the expected pivots. -/
def symCm (s : FrontSym) : Nat := s.candRows.length - s.fp

/-- ParU_Factors of ParU.h: one dense m-by-n factor block. -/
structure ParU_Factors where
  m : Nat
  n : Nat
  p : Nat → Nat → ℚ

/-- Per-front numeric results (ParU_Numeric of ParU.h): the realized row
list frowList, the realized non-pivotal column list fcolList, the number
of eliminated pivots, and the two dense factor blocks. -/
structure FrontNum where
  frowList : List Nat
  fcolList : List Nat
  npiv : Nat
  partial_LUs : ParU_Factors
  partial_Us : ParU_Factors

/-- rowCount[f] of ParU.h. -/
def frowCount (r : FrontNum) : Nat := r.frowList.length

/-- The number of rows of the contribution block: the realized rows that
were not consumed as pivot rows. -/
def cbRowCount (r : FrontNum) : Nat := frowCount r - r.npiv

/-- Modelled from the spec: the numeric realization of one front by
ParU_Factorize (implementation absent from this source snapshot).  The
front is allocated at the symbolic bound; after assembly, candidate rows
and columns with no nonzero contribution are compacted away; the front
eliminates at most fp pivots, one realized row per eliminated pivot; the
eliminated-rows block (partial_LUs) is rowCount-by-npiv and the
eliminated-columns block (partial_Us) is npiv-by-colCount. -/
def frontNumOf (s : FrontSym) (F : Nat → Nat → ℚ) : FrontNum :=
  let rows := s.candRows.filter
    (fun i => s.candCols.any (fun j => !(F i j == 0)))
  let cols := s.candCols.filter
    (fun j => s.candRows.any (fun i => !(F i j == 0)))
  let np := min s.fp rows.length
  ⟨rows, cols, np,
   ⟨rows.length, np, fun a b => F (rows.getD a 0) (s.candCols.getD b 0)⟩,
   ⟨np, cols.length, fun a b => F (rows.getD a 0) (cols.getD b 0)⟩⟩

/-- Claim C4: the realized dimensions of every front are bounded by the
symbolic estimates: the realized row count is at most Fm[f], the
contribution block has at most Cm[f] rows, and the dense factor blocks
fit within the symbolic boxes: the eliminated-rows block has the realized
rows and at most fp columns, the eliminated-columns block has at most fp
rows and the realized non-pivotal columns. -/
theorem front_dims_within_bounds (s : FrontSym) (F : Nat → Nat → ℚ) :
    frowCount (frontNumOf s F) ≤ symFm s ∧
    cbRowCount (frontNumOf s F) ≤ symCm s ∧
    (frontNumOf s F).partial_LUs.m = frowCount (frontNumOf s F) ∧
    (frontNumOf s F).partial_LUs.n ≤ s.fp ∧
    (frontNumOf s F).partial_Us.m ≤ s.fp ∧
    (frontNumOf s F).partial_Us.n = (frontNumOf s F).fcolList.length ∧
    (frontNumOf s F).fcolList.length ≤ s.candCols.length := by
  have hr : frowCount (frontNumOf s F) ≤ symFm s :=
    List.length_filter_le _ _
  have hnp : (frontNumOf s F).npiv =
      min s.fp (frowCount (frontNumOf s F)) := rfl
  refine ⟨hr, ?_, rfl, ?_, ?_, rfl, List.length_filter_le _ _⟩
  · have hr2 : frowCount (frontNumOf s F) ≤ s.candRows.length := hr
    rw [cbRowCount, hnp, symCm]
    rcases Nat.le_total s.fp (frowCount (frontNumOf s F)) with hle | hle
    · rw [min_eq_left hle]
      omega
    · rw [min_eq_right hle]
      omega
  · show min s.fp (frowCount (frontNumOf s F)) ≤ s.fp
    exact min_le_left _ _
  · show min s.fp (frowCount (frontNumOf s F)) ≤ s.fp
    exact min_le_left _ _

-- ===========================================================================
-- Part 9: frontal assembly equals the Schur complement -- claim C1
-- ===========================================================================

/-- One step of the direct reference dense elimination: eliminating pivot
k updates every entry strictly below and to the right of k. -/
def schurStep (k : Nat) (M : Nat → Nat → ℚ) : Nat → Nat → ℚ :=
  fun i j =>
    if k < i ∧ k < j then M i j - (M i k / M k k) * M k j else M i j

/-- The direct, non-task reference elimination: the working matrix after
eliminating pivots 0..k-1.  For i, j ≥ k this is the Schur complement of
the already-eliminated variables. -/
def schurAt (A : Nat → Nat → ℚ) : Nat → Nat → Nat → ℚ
  | 0 => A
  | k + 1 => schurStep k (schurAt A k)

/-- The elimination steps a, a+1, ..., a+c-1 applied inside a front. -/
def schurSteps : Nat → Nat → (Nat → Nat → ℚ) → Nat → Nat → ℚ
  | _, 0, M => M
  | a, c + 1, M => schurSteps (a + 1) c (schurStep a M)

theorem schurSteps_schurAt (A : Nat → Nat → ℚ) :
    ∀ c a, schurSteps a c (schurAt A a) = schurAt A (a + c) := by
  intro c
  induction c with
  | zero => intro a; rfl
  | succ c ih =>
    intro a
    show schurSteps (a + 1) c (schurStep a (schurAt A a)) = _
    have h1 : schurStep a (schurAt A a) = schurAt A (a + 1) := rfl
    rw [h1, ih (a + 1)]
    have harith : a + 1 + c = a + (c + 1) := by omega
    rw [harith]

/-- Two matrices that agree on a row/column region agree after in-front
elimination steps whose pivots lie in the region. -/
theorem schurSteps_congr (R C : Nat → Prop) :
    ∀ (c a : Nat) (M N : Nat → Nat → ℚ),
      (∀ k, a ≤ k → k < a + c → R k ∧ C k) →
      (∀ i j, R i → C j → M i j = N i j) →
      ∀ i j, R i → C j → schurSteps a c M i j = schurSteps a c N i j := by
  intro c
  induction c with
  | zero => intro a M N _ h i j hi hj; exact h i j hi hj
  | succ c ih =>
    intro a M N hpiv h i j hi hj
    show schurSteps (a + 1) c (schurStep a M) i j =
      schurSteps (a + 1) c (schurStep a N) i j
    apply ih (a + 1) (schurStep a M) (schurStep a N)
      (fun k h1 h2 => hpiv k (by omega) (by omega))
      ?_ i j hi hj
    intro x y hx hy
    obtain ⟨hra, hca⟩ := hpiv a (le_refl a) (by omega)
    rw [schurStep, schurStep]
    rw [h x y hx hy, h x a hx hca, h a a hra hca, h a y hra hy]

/-- A row whose leading entries vanish is untouched by the eliminations
of the corresponding leading pivots. -/
theorem schurAt_row_fresh (A : Nat → Nat → ℚ) (i K : Nat)
    (h0 : ∀ p, p < K → A i p = 0) :
    ∀ k, k ≤ K → ∀ j, schurAt A k i j = A i j := by
  intro k
  induction k with
  | zero => intro _ j; rfl
  | succ k ih =>
    intro hk j
    show schurStep k (schurAt A k) i j = A i j
    rw [schurStep]
    split
    · rw [ih (by omega) j, ih (by omega) k, h0 k (by omega), zero_div,
        zero_mul, sub_zero]
    · exact ih (by omega) j

/-- An entry is unchanged across a pivot range in which its row never
meets a pivot column with a nonzero entry. -/
theorem schurAt_stable (A : Nat → Nat → ℚ) (i j : Nat) :
    ∀ b a, a ≤ b → (∀ p, a ≤ p → p < b → schurAt A p i p = 0) →
      schurAt A b i j = schurAt A a i j := by
  intro b
  induction b with
  | zero =>
    intro a ha _
    interval_cases a
    rfl
  | succ b ih =>
    intro a ha hz
    rcases Nat.eq_or_lt_of_le ha with heq | hlt
    · rw [heq]
    · have hab : a ≤ b := by omega
      have h1 : schurAt A b i j = schurAt A a i j :=
        ih a hab (fun p h1 h2 => hz p h1 (by omega))
      show schurStep b (schurAt A b) i j = _
      rw [schurStep]
      split
      · rw [hz b hab (by omega), zero_div, zero_mul, sub_zero, h1]
      · rw [h1]

/-- An entry that starts at zero and never receives a nonzero update
stays zero through the eliminations. -/
theorem schurAt_zero_entry (A : Nat → Nat → ℚ) (i j : Nat)
    (hA : A i j = 0) :
    ∀ b, (∀ p, p < b → schurAt A p i p = 0 ∨ schurAt A p p j = 0) →
      schurAt A b i j = 0 := by
  intro b
  induction b with
  | zero => exact fun _ => hA
  | succ b ih =>
    intro hz
    have h1 : schurAt A b i j = 0 := ih (fun p hp => hz p (by omega))
    show schurStep b (schurAt A b) i j = 0
    rw [schurStep]
    split
    · rcases hz b (by omega) with h | h
      · rw [h1, h, zero_div, zero_mul, sub_zero]
      · rw [h1, h, mul_zero, sub_zero]
    · exact h1

/-- The symbolic layout consumed by the frontal assembler, following
ParU_Symbolic of ParU.h: fronts 0..nf-1 own the consecutive pivot ranges
Super[f]..Super[f+1]-1 of the n-by-n permuted matrix; parent is the
assembly tree (postordered: a parent has a larger index, the placeholder
root is nf); first[f] is the first front of f's subtree, so the subtree
of f is the front interval first[f]..f; frontOf locates the front owning
a pivot; rowOwner assigns each row of S to the front that assembles its
original entries (the front of its leftmost column); rowSet / colSet are
the per-front active row and column lists. -/
structure MFLayout where
  n : Nat
  nf : Nat
  Super : Nat → Nat
  parent : Nat → Nat
  first : Nat → Nat
  frontOf : Nat → Nat
  rowOwner : Nat → Nat
  rowSet : Nat → List Nat
  colSet : Nat → List Nat

/-- Well-formedness of a symbolic layout for a matrix A: the structural
guarantees the symbolic analysis provides to the numeric phase.  The
pattern_rows / pattern_cols fields state that the analysis produced
conservative patterns: every row (column) carrying a nonzero at the time
a pivot is eliminated is listed in the pivot's front. -/
structure MFWellFormed (L : MFLayout) (A : Nat → Nat → ℚ) : Prop where
  super_zero : L.Super 0 = 0
  super_last : L.Super L.nf = L.n
  super_step : ∀ f, f < L.nf → L.Super f ≤ L.Super (f + 1)
  parent_gt : ∀ f, f < L.nf → f < L.parent f ∧ L.parent f ≤ L.nf
  first_le : ∀ f, f < L.nf → L.first f ≤ f
  parent_confine : ∀ f, f < L.nf → ∀ g, g < f → L.first f ≤ g →
    (L.parent g < L.nf ∧ L.first f ≤ L.parent g ∧ L.parent g ≤ f)
  first_parent : ∀ c, c < L.nf → L.parent c < L.nf →
    L.first (L.parent c) ≤ L.first c
  sibling_disjoint : ∀ c1, c1 < L.nf → ∀ c2, c2 < L.nf →
    L.parent c1 = L.parent c2 → c1 ≠ c2 →
    (c1 < L.first c2 ∨ c2 < L.first c1)
  frontOf_spec : ∀ p, p < L.n → L.frontOf p < L.nf ∧
    L.Super (L.frontOf p) ≤ p ∧ p < L.Super (L.frontOf p + 1)
  pivot_mem : ∀ f, f < L.nf → ∀ p, L.Super f ≤ p → p < L.Super (f + 1) →
    p ∈ L.rowSet f ∧ p ∈ L.colSet f
  row_range : ∀ f, f < L.nf → ∀ i, i ∈ L.rowSet f →
    L.Super f ≤ i ∧ i < L.n
  col_range : ∀ f, f < L.nf → ∀ j, j ∈ L.colSet f →
    L.Super f ≤ j ∧ j < L.n
  owner_front : ∀ i, i < L.n →
    L.rowOwner i < L.nf ∧ i ∈ L.rowSet (L.rowOwner i)
  owner_leftmost : ∀ i, i < L.n → ∀ p, p < L.Super (L.rowOwner i) →
    A i p = 0
  owner_cols : ∀ i, i < L.n → ∀ j, j < L.n → A i j ≠ 0 →
    j ∈ L.colSet (L.rowOwner i)
  row_in_subtree : ∀ f, f < L.nf → ∀ i, i ∈ L.rowSet f →
    L.first f ≤ L.rowOwner i ∧ L.rowOwner i ≤ f
  nest_rows : ∀ c, c < L.nf → L.parent c < L.nf → ∀ i, i ∈ L.rowSet c →
    L.Super (c + 1) ≤ i → i ∈ L.rowSet (L.parent c)
  nest_cols : ∀ c, c < L.nf → L.parent c < L.nf → ∀ j, j ∈ L.colSet c →
    L.Super (c + 1) ≤ j → j ∈ L.colSet (L.parent c)
  pattern_rows : ∀ p, p < L.n → ∀ i, i < L.n →
    (p < i ∧ schurAt A p i p ≠ 0) → i ∈ L.rowSet (L.frontOf p)
  pattern_cols : ∀ p, p < L.n → ∀ j, j < L.n →
    (p < j ∧ schurAt A p p j ≠ 0) → j ∈ L.colSet (L.frontOf p)

theorem superMono (L : MFLayout) (A : Nat → Nat → ℚ)
    (W : MFWellFormed L A) :
    ∀ h g, g ≤ h → h ≤ L.nf → L.Super g ≤ L.Super h := by
  intro h
  induction h with
  | zero =>
    intro g hg _
    interval_cases g
    exact le_rfl
  | succ u ih =>
    intro g hg hun
    rcases Nat.lt_or_ge g (u + 1) with hlt | hge
    · exact le_trans (ih g (by omega) (by omega)) (W.super_step u (by omega))
    · have : g = u + 1 := by omega
      rw [this]

theorem frontOf_ge (L : MFLayout) (A : Nat → Nat → ℚ)
    (W : MFWellFormed L A) (p f : Nat) (hp : p < L.n) (hf : f ≤ L.nf)
    (h : L.Super f ≤ p) : f ≤ L.frontOf p := by
  obtain ⟨h1, h2, h3⟩ := W.frontOf_spec p hp
  by_contra hc
  have hff : L.frontOf p + 1 ≤ f := by omega
  have := superMono L A W f (L.frontOf p + 1) hff hf
  omega

theorem frontOf_lt (L : MFLayout) (A : Nat → Nat → ℚ)
    (W : MFWellFormed L A) (p f : Nat) (hp : p < L.n) (_hf : f ≤ L.nf)
    (h : p < L.Super f) : L.frontOf p < f := by
  obtain ⟨h1, h2, h3⟩ := W.frontOf_spec p hp
  by_contra hc
  have := superMono L A W (L.frontOf p) f (by omega) (by omega)
  omega

/-- Every proper member d of the subtree of f lies in the subtree of
exactly one child of f; this produces that child, together with the
interval facts that make it unique. -/
theorem childFor (L : MFLayout) (A : Nat → Nat → ℚ)
    (W : MFWellFormed L A) (f : Nat) (hf : f < L.nf) :
    ∀ m d, f - d ≤ m → d < f → L.first f ≤ d →
      ∃ c, c < f ∧ L.parent c = f ∧ L.first c ≤ L.first d ∧ d ≤ c := by
  intro m
  induction m with
  | zero => intro d h1 h2 _; omega
  | succ m ih =>
    intro d hm hd hfd
    by_cases hpar : L.parent d = f
    · exact ⟨d, hd, hpar, le_rfl, le_rfl⟩
    · obtain ⟨hp1, hp2, hp3⟩ := W.parent_confine f hf d hd hfd
      have hdgt : d < L.parent d := (W.parent_gt d (by omega)).1
      have hplt : L.parent d < f := lt_of_le_of_ne hp3 hpar
      obtain ⟨c, hc1, hc2, hc3, hc4⟩ :=
        ih (L.parent d) (by omega) hplt hp2
      refine ⟨c, hc1, hc2, ?_, by omega⟩
      exact le_trans hc3 (W.first_parent d (by omega) hp1)

/-- Rows flow up inside a subtree: a surviving row active at a subtree
member g is active at the subtree root c. -/
theorem liftRow (L : MFLayout) (A : Nat → Nat → ℚ)
    (W : MFWellFormed L A) (c : Nat) (hc : c < L.nf) (i : Nat)
    (hi : L.Super c ≤ i) :
    ∀ m g, c - g ≤ m → L.first c ≤ g → g ≤ c → i ∈ L.rowSet g →
      i ∈ L.rowSet c := by
  intro m
  induction m with
  | zero =>
    intro g h1 _ h3 h4
    have : g = c := by omega
    rw [← this]
    exact h4
  | succ m ih =>
    intro g hm hfg hgc hmem
    rcases Nat.eq_or_lt_of_le hgc with heq | hlt
    · rw [← heq]; exact hmem
    · obtain ⟨hp1, hp2, hp3⟩ := W.parent_confine c hc g hlt hfg
      have hgn : g < L.nf := by omega
      have hup : i ∈ L.rowSet (L.parent g) := by
        apply W.nest_rows g hgn hp1 i hmem
        calc L.Super (g + 1) ≤ L.Super c :=
              superMono L A W c (g + 1) (by omega) (by omega)
          _ ≤ i := hi
      have hggt : g < L.parent g := (W.parent_gt g hgn).1
      exact ih (L.parent g) (by omega) hp2 hp3 hup

/-- Columns flow up inside a subtree, as rows do. -/
theorem liftCol (L : MFLayout) (A : Nat → Nat → ℚ)
    (W : MFWellFormed L A) (c : Nat) (hc : c < L.nf) (j : Nat)
    (hj : L.Super c ≤ j) :
    ∀ m g, c - g ≤ m → L.first c ≤ g → g ≤ c → j ∈ L.colSet g →
      j ∈ L.colSet c := by
  intro m
  induction m with
  | zero =>
    intro g h1 _ h3 h4
    have : g = c := by omega
    rw [← this]
    exact h4
  | succ m ih =>
    intro g hm hfg hgc hmem
    rcases Nat.eq_or_lt_of_le hgc with heq | hlt
    · rw [← heq]; exact hmem
    · obtain ⟨hp1, hp2, hp3⟩ := W.parent_confine c hc g hlt hfg
      have hgn : g < L.nf := by omega
      have hup : j ∈ L.colSet (L.parent g) := by
        apply W.nest_cols g hgn hp1 j hmem
        calc L.Super (g + 1) ≤ L.Super c :=
              superMono L A W c (g + 1) (by omega) (by omega)
          _ ≤ j := hj
      have hggt : g < L.parent g := (W.parent_gt g hgn).1
      exact ih (L.parent g) (by omega) hp2 hp3 hup

/-- The original entries assigned to front f: per ParU.h, each row of S
is assembled in full at the front owning it (the front of its leftmost
column), inside the front's column list. -/
def origContrib (L : MFLayout) (A : Nat → Nat → ℚ) (f i j : Nat) : ℚ :=
  if L.rowOwner i = f ∧ i ∈ L.rowSet f ∧ j ∈ L.colSet f then A i j else 0

/-- The children of front f in the assembly tree. -/
def childList (L : MFLayout) (f : Nat) : List Nat :=
  (List.range f).filter (fun c => L.parent c == f)

/-- Modelled from the spec: the dense working matrix of front f after
frontal assembly by ParU_Factorize (implementation absent from this
source snapshot).  Per the spec, the assembled entry at (i, j) is the
original matrix entry assigned to f plus, scatter-added at matching row
and column indices, each child's contributed entry: the child's assembled
matrix after the child's own partial dense elimination, restricted to the
child's surviving (non-eliminated) rows and columns.  The explicit fuel
bounds the recursion depth; children have smaller front indices, so
fuel f + 1 suffices for front f. -/
def assembledFuel (L : MFLayout) (A : Nat → Nat → ℚ) :
    Nat → Nat → Nat → Nat → ℚ
  | 0, _, _, _ => 0
  | fuel + 1, f, i, j =>
    origContrib L A f i j +
    ((childList L f).map (fun c =>
      if i ∈ L.rowSet c ∧ L.Super (c + 1) ≤ i ∧
         j ∈ L.colSet c ∧ L.Super (c + 1) ≤ j then
        schurSteps (L.Super c) (L.Super (c + 1) - L.Super c)
          (assembledFuel L A fuel c) i j
      else 0)).sum

/-- The assembled dense working matrix of front f. -/
def assembledFront (L : MFLayout) (A : Nat → Nat → ℚ) (f : Nat) :
    Nat → Nat → ℚ :=
  assembledFuel L A (f + 1) f

theorem assembledFuel_succ (L : MFLayout) (A : Nat → Nat → ℚ)
    (fu f i j : Nat) :
    assembledFuel L A (fu + 1) f i j =
    origContrib L A f i j +
    ((childList L f).map (fun c =>
      if i ∈ L.rowSet c ∧ L.Super (c + 1) ≤ i ∧
         j ∈ L.colSet c ∧ L.Super (c + 1) ≤ j then
        schurSteps (L.Super c) (L.Super (c + 1) - L.Super c)
          (assembledFuel L A fu c) i j
      else 0)).sum := rfl

theorem childList_mem (L : MFLayout) (f c : Nat) :
    c ∈ childList L f ↔ c < f ∧ L.parent c = f := by
  simp [childList, List.mem_filter, List.mem_range]

theorem childList_nodup (L : MFLayout) (f : Nat) : (childList L f).Nodup :=
  (List.nodup_range f).filter _

/-- Summing a function supported on a single member of a duplicate-free
list yields its value there. -/
theorem sum_map_single (g : Nat → ℚ) :
    ∀ l : List Nat, l.Nodup → ∀ c, c ∈ l →
      (∀ x, x ∈ l → x ≠ c → g x = 0) → (l.map g).sum = g c := by
  intro l
  induction l with
  | nil =>
    intro _ c hc
    simp at hc
  | cons a t ih =>
    intro hnd c hc hz
    rw [List.map_cons, List.sum_cons]
    obtain ⟨hat, hndt⟩ := List.nodup_cons.mp hnd
    rcases List.mem_cons.mp hc with heq | hmem
    · have ht0 : (t.map g).sum = 0 := by
        apply List.sum_eq_zero
        intro x hx
        obtain ⟨y, hy, rfl⟩ := List.mem_map.mp hx
        apply hz y (List.mem_cons_of_mem a hy)
        intro hyc
        rw [hyc, heq] at hy
        exact hat hy
      rw [ht0, ← heq, add_zero]
    · have ha0 : g a = 0 := by
        apply hz a (List.mem_cons_self a t)
        intro hac
        apply hat
        rw [hac]
        exact hmem
      rw [ha0, zero_add]
      exact ih hndt c hmem
        (fun x hx hxc => hz x (List.mem_cons_of_mem a hx) hxc)

/-- Among the children of f, at most one subtree interval contains a
given front d. -/
theorem child_unique (L : MFLayout) (A : Nat → Nat → ℚ)
    (W : MFWellFormed L A) (f : Nat) (hf : f < L.nf) (d cs c : Nat)
    (hcs_lt : cs < f) (hcs_par : L.parent cs = f)
    (h1 : L.first cs ≤ d) (h2 : d ≤ cs)
    (hc_lt : c < f) (hc_par : L.parent c = f)
    (h3 : L.first c ≤ d) (h4 : d ≤ c) : c = cs := by
  by_contra hne
  rcases W.sibling_disjoint c (by omega) cs (by omega)
    (by rw [hc_par, hcs_par]) hne with h | h
  · omega
  · omega

/-- If the reference elimination still carries a nonzero entry in row i
at the moment pivot p is eliminated, with p strictly before front f and
row i owned inside the subtree of f's child cs, then the front of pivot p
lies inside the subtree of that same child. -/
theorem pivot_row_confined (L : MFLayout) (A : Nat → Nat → ℚ)
    (W : MFWellFormed L A) (f : Nat) (hf : f < L.nf)
    (i : Nat) (hin : i < L.n) (hsi : L.Super f ≤ i)
    (cs : Nat) (hcs_lt : cs < f) (hcs_par : L.parent cs = f)
    (hcsd1 : L.first cs ≤ L.rowOwner i) (hcsd2 : L.rowOwner i ≤ cs)
    (hfd : L.first f ≤ L.rowOwner i)
    (p : Nat) (hp : p < L.Super f) (hne : schurAt A p i p ≠ 0) :
    L.frontOf p ≤ cs ∧ L.rowOwner i ≤ L.frontOf p := by
  have hsfn : L.Super f ≤ L.n := by
    have := superMono L A W L.nf f (le_of_lt hf) le_rfl
    rw [W.super_last] at this
    exact this
  have hpn : p < L.n := by omega
  have hiRg := W.pattern_rows p hpn i hin ⟨by omega, hne⟩
  obtain ⟨hgnf, hgs1, hgs2⟩ := W.frontOf_spec p hpn
  have hglt : L.frontOf p < f := frontOf_lt L A W p f hpn (le_of_lt hf) hp
  obtain ⟨hfg1, hfg2⟩ := W.row_in_subtree (L.frontOf p) hgnf i hiRg
  have hffg : L.first f ≤ L.frontOf p := le_trans hfd hfg2
  obtain ⟨c2, hc2lt, hc2par, hc2first, hc2ge⟩ :=
    childFor L A W f hf (f - L.frontOf p) (L.frontOf p) le_rfl hglt hffg
  have hdc2 : L.first c2 ≤ L.rowOwner i := le_trans hc2first hfg1
  have hdc2b : L.rowOwner i ≤ c2 := le_trans hfg2 hc2ge
  have hceq : c2 = cs :=
    child_unique L A W f hf (L.rowOwner i) cs c2 hcs_lt hcs_par hcsd1 hcsd2
      hc2lt hc2par hdc2 hdc2b
  exact ⟨by omega, hfg2⟩

/-- The front-sum invariant, fuel-indexed: on the front's active rows and
columns the assembled matrix agrees with the direct reference
elimination, i.e. with the Schur complement of the already-eliminated
variables. -/
theorem assembled_eq_schur_aux (L : MFLayout) (A : Nat → Nat → ℚ)
    (W : MFWellFormed L A) :
    ∀ fuel f, f < fuel → f < L.nf → ∀ i, i ∈ L.rowSet f →
      ∀ j, j ∈ L.colSet f →
      assembledFuel L A fuel f i j = schurAt A (L.Super f) i j := by
  intro fuel
  induction fuel with
  | zero => intro f h; omega
  | succ fu ih =>
    intro f hffu hfnf i hi j hj
    obtain ⟨hsi, hin⟩ := W.row_range f hfnf i hi
    obtain ⟨hsj, hjn⟩ := W.col_range f hfnf j hj
    obtain ⟨hfd, hdf⟩ := W.row_in_subtree f hfnf i hi
    obtain ⟨hdnf, hidR⟩ := W.owner_front i hin
    rw [assembledFuel_succ]
    by_cases hown : L.rowOwner i = f
    · -- Case A: row i is assembled at f itself.
      have horig : origContrib L A f i j = A i j := by
        rw [origContrib, if_pos ⟨hown, hi, hj⟩]
      have hsum : ((childList L f).map (fun c =>
          if i ∈ L.rowSet c ∧ L.Super (c + 1) ≤ i ∧
             j ∈ L.colSet c ∧ L.Super (c + 1) ≤ j then
            schurSteps (L.Super c) (L.Super (c + 1) - L.Super c)
              (assembledFuel L A fu c) i j
          else 0)).sum = 0 := by
        apply List.sum_eq_zero
        intro x hx
        obtain ⟨c, hcmem, rfl⟩ := List.mem_map.mp hx
        obtain ⟨hclt, hcpar⟩ := (childList_mem L f c).mp hcmem
        have hng : ¬(i ∈ L.rowSet c ∧ L.Super (c + 1) ≤ i ∧
            j ∈ L.colSet c ∧ L.Super (c + 1) ≤ j) := by
          intro hgate
          have hle := (W.row_in_subtree c (by omega) i hgate.1).2
          omega
        rw [if_neg hng]
      rw [horig, hsum, add_zero]
      have h0 : ∀ p, p < L.Super f → A i p = 0 := by
        intro p hp
        apply W.owner_leftmost i hin p
        rw [hown]
        exact hp
      exact (schurAt_row_fresh A i (L.Super f) h0 (L.Super f) le_rfl j).symm
    · -- Case B: row i arrives through the contribution block of the
      -- unique child cs whose subtree owns it.
      have hdlt : L.rowOwner i < f := lt_of_le_of_ne hdf hown
      obtain ⟨cs, hcs_lt, hcs_par, hcs_first, hcs_ge⟩ :=
        childFor L A W f hfnf (f - L.rowOwner i) (L.rowOwner i)
          le_rfl hdlt hfd
      have hcs_nf : cs < L.nf := by omega
      have hfdd : L.first (L.rowOwner i) ≤ L.rowOwner i := W.first_le _ hdnf
      have hd_in : L.first cs ≤ L.rowOwner i := le_trans hcs_first hfdd
      have hstep_cs : L.Super cs ≤ L.Super (cs + 1) := W.super_step cs hcs_nf
      have hecs : L.Super (cs + 1) ≤ L.Super f :=
        superMono L A W f (cs + 1) (by omega) (by omega)
      have horig : origContrib L A f i j = 0 := by
        rw [origContrib, if_neg]
        intro hcond
        exact hown hcond.1
      have hsfn : L.Super f ≤ L.n := by
        have := superMono L A W L.nf f (le_of_lt hfnf) le_rfl
        rw [W.super_last] at this
        exact this
      have honly : ∀ c, c ∈ childList L f → c ≠ cs →
          (fun c =>
            if i ∈ L.rowSet c ∧ L.Super (c + 1) ≤ i ∧
               j ∈ L.colSet c ∧ L.Super (c + 1) ≤ j then
              schurSteps (L.Super c) (L.Super (c + 1) - L.Super c)
                (assembledFuel L A fu c) i j
            else 0) c = 0 := by
        intro c hcmem hne
        obtain ⟨hclt, hcpar⟩ := (childList_mem L f c).mp hcmem
        have hng : ¬(i ∈ L.rowSet c ∧ L.Super (c + 1) ≤ i ∧
            j ∈ L.colSet c ∧ L.Super (c + 1) ≤ j) := by
          intro hgate
          obtain ⟨hd1c, hd2c⟩ := W.row_in_subtree c (by omega) i hgate.1
          exact hne (child_unique L A W f hfnf (L.rowOwner i) cs c
            hcs_lt hcs_par hd_in hcs_ge hclt hcpar hd1c hd2c)
        exact if_neg hng
      by_cases hjC : j ∈ L.colSet cs
      · -- B-i: the entry is carried by the child's contribution block.
        have hiRcs : i ∈ L.rowSet cs :=
          liftRow L A W cs hcs_nf i (by omega) (cs - L.rowOwner i)
            (L.rowOwner i) le_rfl hd_in hcs_ge hidR
        have hgate : i ∈ L.rowSet cs ∧ L.Super (cs + 1) ≤ i ∧
            j ∈ L.colSet cs ∧ L.Super (cs + 1) ≤ j :=
          ⟨hiRcs, by omega, hjC, by omega⟩
        have hcsmem : cs ∈ childList L f :=
          (childList_mem L f cs).mpr ⟨hcs_lt, hcs_par⟩
        rw [horig, zero_add,
          sum_map_single _ (childList L f) (childList_nodup L f) cs
            hcsmem honly]
        rw [if_pos hgate]
        have harange : L.Super cs + (L.Super (cs + 1) - L.Super cs) =
            L.Super (cs + 1) := by omega
        have hagree : ∀ x y, x ∈ L.rowSet cs → y ∈ L.colSet cs →
            assembledFuel L A fu cs x y = schurAt A (L.Super cs) x y :=
          fun x y hx hy => ih cs (by omega) hcs_nf x hx y hy
        have hpiv : ∀ k, L.Super cs ≤ k →
            k < L.Super cs + (L.Super (cs + 1) - L.Super cs) →
            k ∈ L.rowSet cs ∧ k ∈ L.colSet cs := by
          intro k h1 h2
          exact W.pivot_mem cs hcs_nf k h1 (by omega)
        rw [schurSteps_congr (· ∈ L.rowSet cs) (· ∈ L.colSet cs)
          (L.Super (cs + 1) - L.Super cs) (L.Super cs)
          (assembledFuel L A fu cs) (schurAt A (L.Super cs))
          hpiv hagree i j hiRcs hjC]
        rw [schurSteps_schurAt A (L.Super (cs + 1) - L.Super cs)
          (L.Super cs)]
        rw [harange]
        symm
        apply schurAt_stable A i j (L.Super f) (L.Super (cs + 1)) hecs
        intro p hp1 hp2
        by_contra hne0
        obtain ⟨hle_cs, _⟩ := pivot_row_confined L A W f hfnf i hin hsi
          cs hcs_lt hcs_par hd_in hcs_ge hfd p hp2 hne0
        have := frontOf_ge L A W p (cs + 1) (by omega) (by omega) hp1
        omega
      · -- B-ii: no front carries the entry, and it is structurally zero.
        have hscs : L.Super cs ≤ j := by omega
        have hsum : ((childList L f).map (fun c =>
            if i ∈ L.rowSet c ∧ L.Super (c + 1) ≤ i ∧
               j ∈ L.colSet c ∧ L.Super (c + 1) ≤ j then
              schurSteps (L.Super c) (L.Super (c + 1) - L.Super c)
                (assembledFuel L A fu c) i j
            else 0)).sum = 0 := by
          apply List.sum_eq_zero
          intro x hx
          obtain ⟨c, hcmem, rfl⟩ := List.mem_map.mp hx
          by_cases hcc : c = cs
          · rw [hcc, if_neg]
            intro hgate
            exact hjC hgate.2.2.1
          · exact honly c hcmem hcc
        rw [horig, hsum, add_zero]
        symm
        have hAij : A i j = 0 := by
          by_contra hA
          apply hjC
          apply liftCol L A W cs hcs_nf j hscs (cs - L.rowOwner i)
            (L.rowOwner i) le_rfl hd_in hcs_ge
          exact W.owner_cols i hin j hjn hA
        apply schurAt_zero_entry A i j hAij (L.Super f)
        intro p hp
        by_cases hrow : schurAt A p i p = 0
        · exact Or.inl hrow
        · right
          by_contra hcol
          obtain ⟨hle_cs, hge_d⟩ := pivot_row_confined L A W f hfnf i hin
            hsi cs hcs_lt hcs_par hd_in hcs_ge hfd p hp hrow
          have hpn : p < L.n := by omega
          have hjCg : j ∈ L.colSet (L.frontOf p) :=
            W.pattern_cols p hpn j hjn ⟨by omega, hcol⟩
          apply hjC
          apply liftCol L A W cs hcs_nf j hscs (cs - L.frontOf p)
            (L.frontOf p) le_rfl (by omega) hle_cs hjCg

/-- Claim C1: for every front f of a well-formed symbolic layout, after
frontal assembly the assembled dense working matrix of f -- by
construction the sum of the original matrix entries assigned to f and all
child fronts' contributed entries at matching row/column indices --
equals, on f's active rows and columns, the Schur complement of the
already-eliminated variables as computed by the direct, non-task
reference dense elimination. -/
theorem front_assembly_schur (L : MFLayout) (A : Nat → Nat → ℚ)
    (W : MFWellFormed L A) (f : Nat) (hf : f < L.nf) :
    ∀ i, i ∈ L.rowSet f → ∀ j, j ∈ L.colSet f →
      assembledFront L A f i j = schurAt A (L.Super f) i j :=
  fun i hi j hj =>
    assembled_eq_schur_aux L A W (f + 1) f (by omega) hf i hi j hj

/-- Concrete 4-by-4 matrix for the claim C1 witness:
rows 0 and 2 touch columns 0, 2, 3; rows 1 and 3 touch columns 1, 2, 3;
so fronts 0 (pivot 0) and 1 (pivot 1) are independent children of front 2
(pivots 2 and 3), and both feed it contribution blocks. -/
def mfA : Nat → Nat → ℚ := fun i j =>
  if i = 0 then
    (if j = 0 then 2 else if j = 2 then 1 else if j = 3 then 1 else 0)
  else if i = 1 then
    (if j = 1 then 3 else if j = 3 then 1 else 0)
  else if i = 2 then
    (if j = 0 then 1 else if j = 2 then 4 else if j = 3 then 1 else 0)
  else if i = 3 then
    (if j = 1 then 1 else if j = 2 then 1 else if j = 3 then 5 else 0)
  else 0

/-- Concrete symbolic layout for the claim C1 witness: three fronts with
pivot ranges {0}, {1}, {2,3}; fronts 0 and 1 are the two children of
front 2. -/
def mfL : MFLayout :=
  ⟨4, 3,
   fun f => if f = 0 then 0 else if f = 1 then 1 else if f = 2 then 2 else 4,
   fun f => if f ≤ 1 then 2 else 3,
   fun f => if f = 1 then 1 else 0,
   fun p => if p ≤ 2 then p else 2,
   fun i => if i = 0 then 0 else if i = 1 then 1 else if i = 2 then 0 else 1,
   fun f => if f = 0 then [0, 2] else if f = 1 then [1, 3] else [2, 3],
   fun f => if f = 0 then [0, 2, 3] else if f = 1 then [1, 2, 3] else [2, 3]⟩

unseal Rat.add Rat.mul Rat.inv Rat.sub in
/-- Witness for claim C1: on the concrete 4-by-4 instance, the root
front's assembled matrix agrees with the reference Schur complement at a
contribution-block entry fed by both children. -/
theorem front_assembly_schur_wit :
    assembledFront mfL mfA 2 3 2 = schurAt mfA (mfL.Super 2) 3 2 :=
  front_assembly_schur mfL mfA
    (by constructor <;> decide)
    2 (by decide) 3 (by decide) 2 (by decide)
